import Mathlib

/-!
Shallow embedding of the `auvura-core` crate (files `types.rs`, `detector.rs`,
`policy.rs`, `redactor.rs`).  Rust `String`/`&str` values are modelled as
`List Char`; Rust byte lengths and byte offsets are modelled through
`Char.utf8Size` so that `String::len` corresponds to `byteLen` below.
Fallible or stateful behaviour does not occur in this code: every operation is
a pure function, so each Rust item maps to a plain Lean definition keeping the
source name where possible (`end` is a Lean keyword, so the `Detection.end`
field is called `stop`).
-/

/-- Model of the UTF-8 byte length of a Rust string (`str::len`). -/
def byteLen (s : List Char) : Nat :=
  (s.map Char.utf8Size).sum

/-- Model of `PiiType` from `types.rs`: the closed enumeration of categories. -/
inductive PiiType where
  | Email
  | PhoneNumber
  | Ssn
  | CreditCard
  | IpAddressV4
  | IpAddressV6
deriving DecidableEq, Fintype, Repr

/-- Model of `PiiType::placeholder` from `types.rs`. -/
def PiiType.placeholder : PiiType → List Char
  | .Email => "[REDACTED_EMAIL]".toList
  | .PhoneNumber => "[REDACTED_PHONE]".toList
  | .Ssn => "[REDACTED_SSN]".toList
  | .CreditCard => "[REDACTED_CC]".toList
  | .IpAddressV4 => "[REDACTED_IPv4]".toList
  | .IpAddressV6 => "[REDACTED_IPv6]".toList

/-- Model of `PiiType::requires_validation` from `types.rs`. -/
def PiiType.requires_validation : PiiType → Bool
  | .CreditCard => true
  | .Ssn => true
  | _ => false

/-- Model of `Detection` from `detector.rs`.  `start` and `stop` are UTF-8
byte offsets (the Rust fields `start` and `end`); `original` is the matched
substring. -/
structure Detection where
  pii_type : PiiType
  start : Nat
  stop : Nat
  original : List Char
deriving DecidableEq, Repr

/-- Model of one `dyn PiiDetector` trait object from `detector.rs`: its
category, its `detect` method and its `validate` method (whose trait default
is the constant `true`). -/
structure PiiDetectorI where
  pii_type : PiiType
  detect : List Char → List Detection
  validate : List Char → Bool := fun _ => true

/-- Model of `MultiDetector` from `detector.rs`. -/
structure MultiDetector where
  detectors : List PiiDetectorI

/-- Ordering used by the `sort_by` call inside `resolve_overlaps`:
start ascending, ties broken by span length descending.  `detLe a b` holds
exactly when the Rust comparator returns `Less` or `Equal` on `(a, b)`. -/
def detLe (a b : Detection) : Prop :=
  a.start < b.start ∨ (a.start = b.start ∧ b.stop - b.start ≤ a.stop - a.start)

instance : DecidableRel detLe := fun a b =>
  inferInstanceAs (Decidable (a.start < b.start ∨
    (a.start = b.start ∧ b.stop - b.start ≤ a.stop - a.start)))

instance : IsTotal Detection detLe where
  total a b := by
    unfold detLe
    omega

instance : IsTrans Detection detLe where
  trans a b c hab hbc := by
    unfold detLe at *
    omega

/-- Model of the sweep loop of `MultiDetector::resolve_overlaps`
(`detector.rs` lines 80–96): walk the sorted candidates keeping a current
candidate, replace it on overlap only by a strictly longer span, emit it when
the next candidate starts at or past its end. -/
def MultiDetector.sweep : Detection → List Detection → List Detection
  | current, [] => [current]
  | current, d :: rest =>
    if d.start < current.stop then
      if current.stop - current.start < d.stop - d.start then
        MultiDetector.sweep d rest
      else
        MultiDetector.sweep current rest
    else
      current :: MultiDetector.sweep d rest

/-- Model of `MultiDetector::resolve_overlaps` from `detector.rs`.  Rust's
`sort_by` is a stable sort; `List.insertionSort` is also stable, and a stable
sort for a fixed total preorder is unique, so `insertionSort detLe` produces
exactly the list the Rust sort produces. -/
def MultiDetector.resolve_overlaps (detections : List Detection) : List Detection :=
  match List.insertionSort detLe detections with
  | [] => []
  | d :: rest => MultiDetector.sweep d rest

/-- Model of `MultiDetector::detect` from `detector.rs`: concatenate every
registered detector's result in registration order, then resolve overlaps. -/
def MultiDetector.detect (md : MultiDetector) (text : List Char) : List Detection :=
  MultiDetector.resolve_overlaps ((md.detectors.map (fun d => d.detect text)).flatten)

/-- Model of `RedactionPolicy` from `policy.rs`.  The `HashSet` of enabled
types is a `Finset`, the placeholder `HashMap` is a partial function. -/
structure RedactionPolicy where
  enabled_types : Finset PiiType
  placeholder_map : PiiType → Option (List Char)
  allowlist : List (List Char)
  blocklist : List (List Char)
  strict_validation : Bool

/-- Model of `impl Default for RedactionPolicy`: all six categories enabled,
no custom placeholders, empty term lists, strict validation on. -/
def RedactionPolicy.mkDefault : RedactionPolicy where
  enabled_types :=
    insert PiiType.IpAddressV6 (insert PiiType.IpAddressV4 (insert PiiType.CreditCard
      (insert PiiType.Ssn (insert PiiType.PhoneNumber (insert PiiType.Email ∅)))))
  placeholder_map := fun _ => none
  allowlist := []
  blocklist := []
  strict_validation := true

instance : Inhabited RedactionPolicy := ⟨RedactionPolicy.mkDefault⟩

/-- Model of `RedactionPolicy::is_enabled`. -/
def RedactionPolicy.is_enabled (p : RedactionPolicy) (t : PiiType) : Prop :=
  t ∈ p.enabled_types

instance (p : RedactionPolicy) (t : PiiType) : Decidable (p.is_enabled t) :=
  inferInstanceAs (Decidable (t ∈ p.enabled_types))

/-- Model of `RedactionPolicy::placeholder_for`. -/
def RedactionPolicy.placeholder_for (p : RedactionPolicy) (t : PiiType) : List Char :=
  (p.placeholder_map t).getD t.placeholder

/-- Model of `RedactionPolicy::is_allowed` (substring containment against any
allowlist term). -/
def RedactionPolicy.is_allowed (p : RedactionPolicy) (text : List Char) : Prop :=
  ∃ t ∈ p.allowlist, t <:+: text

/-- Model of `RedactionPolicy::is_blocked`. -/
def RedactionPolicy.is_blocked (p : RedactionPolicy) (text : List Char) : Prop :=
  ∃ t ∈ p.blocklist, t <:+: text

/-- Model of `RedactionPolicy::requires_validation`. -/
def RedactionPolicy.requires_validation (p : RedactionPolicy) : Bool :=
  p.strict_validation

/-- Model of `PolicyBuilder` from `policy.rs`; its derived `Default` wraps
`RedactionPolicy::default()`. -/
structure PolicyBuilder where
  policy : RedactionPolicy

/-- Model of the derived `Default` instance of `PolicyBuilder`. -/
def PolicyBuilder.mkDefault : PolicyBuilder :=
  ⟨RedactionPolicy.mkDefault⟩

/-- Model of `PolicyBuilder::enable`. -/
def PolicyBuilder.enable (b : PolicyBuilder) (t : PiiType) : PolicyBuilder :=
  ⟨{ b.policy with enabled_types := insert t b.policy.enabled_types }⟩

/-- Model of `PolicyBuilder::disable`. -/
def PolicyBuilder.disable (b : PolicyBuilder) (t : PiiType) : PolicyBuilder :=
  ⟨{ b.policy with enabled_types := b.policy.enabled_types.erase t }⟩

/-- Model of `PolicyBuilder::with_placeholder` (`HashMap::insert` overwrites). -/
def PolicyBuilder.with_placeholder (b : PolicyBuilder) (t : PiiType) (ph : List Char) :
    PolicyBuilder :=
  ⟨{ b.policy with placeholder_map := fun u => if u = t then some ph else b.policy.placeholder_map u }⟩

/-- Model of `PolicyBuilder::with_allowlist` (replaces the whole list). -/
def PolicyBuilder.with_allowlist (b : PolicyBuilder) (terms : List (List Char)) : PolicyBuilder :=
  ⟨{ b.policy with allowlist := terms }⟩

/-- Model of `PolicyBuilder::with_blocklist` (replaces the whole list). -/
def PolicyBuilder.with_blocklist (b : PolicyBuilder) (terms : List (List Char)) : PolicyBuilder :=
  ⟨{ b.policy with blocklist := terms }⟩

/-- Model of `PolicyBuilder::strict_validation`. -/
def PolicyBuilder.strict_validation (b : PolicyBuilder) (enabled : Bool) : PolicyBuilder :=
  ⟨{ b.policy with strict_validation := enabled }⟩

/-- Model of `PolicyBuilder::build`. -/
def PolicyBuilder.build (b : PolicyBuilder) : RedactionPolicy :=
  b.policy

/-- Model of `RedactionPolicy::gdpr` from `policy.rs`. -/
def RedactionPolicy.gdpr : RedactionPolicy :=
  ((((((PolicyBuilder.mkDefault.enable .Email).enable .PhoneNumber).enable
      .IpAddressV4).enable .IpAddressV6).disable .Ssn)).build

/-- Model of `RedactionPolicy::hipaa` from `policy.rs`. -/
def RedactionPolicy.hipaa : RedactionPolicy :=
  ((((PolicyBuilder.mkDefault.enable .Ssn).enable .PhoneNumber).enable
      .IpAddressV4).with_allowlist
    ["hospital".toList, "clinic".toList, "medical center".toList]).build

/-- Model of `RedactionPolicy::pci_dss` from `policy.rs`. -/
def RedactionPolicy.pci_dss : RedactionPolicy :=
  ((PolicyBuilder.mkDefault.enable .CreditCard).strict_validation true).build

/-- Model of `Cow<'a, str>` as returned by `Redactor::redact`: either the
borrowed input or an owned rewritten string. -/
inductive Cow where
  | Borrowed (s : List Char)
  | Owned (s : List Char)
deriving DecidableEq, Repr

/-- Model of Rust `str::replace(pat, rep)` as used inside `Redactor::redact`:
replace the leftmost non-overlapping occurrences of `pat`, scanning left to
right.  The engine only calls it with `rep = "█".repeat(pat.len())`, which is
empty when `pat` is empty; for that usage this model coincides with Rust's
behaviour on the empty pattern as well (the text is returned unchanged). -/
def replaceAll (pat rep : List Char) (s : List Char) : List Char :=
  if hp : pat ≠ [] ∧ pat <+: s then
    rep ++ replaceAll pat rep (s.drop pat.length)
  else
    match s with
    | [] => []
    | c :: rest => c :: replaceAll pat rep rest
termination_by s.length
decreasing_by
  · have h1 : 1 ≤ pat.length := by
      cases hpat : pat with
      | nil => exact absurd hpat hp.1
      | cons a l => simp
    have h2 : pat.length ≤ s.length := hp.2.length_le
    simp only [List.length_drop]
    omega
  · simp

/-- Model of the blocklist loop at the top of `Redactor::redact`
(`redactor.rs` lines 29–37): for each blocklist term in order, if it occurs in
the working text, replace every occurrence by a run of `term.len()` block
characters and record that a substitution happened. -/
def blocklistPass : List (List Char) → List Char → Bool → List Char × Bool
  | [], working, applied => (working, applied)
  | term :: rest, working, applied =>
    if term <:+: working then
      blocklistPass rest (replaceAll term (List.replicate (byteLen term) '█') working) true
    else
      blocklistPass rest working applied

/-- Spans `(pos, pos)` at every character boundary, modelling Rust
`str::match_indices` applied with an empty pattern. -/
def boundarySpans : List Char → Nat → List (Nat × Nat)
  | [], pos => [(pos, pos)]
  | c :: rest, pos => (pos, pos) :: boundarySpans rest (pos + c.utf8Size)

/-- Byte spans of the leftmost non-overlapping occurrences of `pat` in `s`
starting at byte position `pos`, modelling Rust `str::match_indices`. -/
def matchIdx (pat : List Char) (s : List Char) (pos : Nat) : List (Nat × Nat) :=
  if hp : pat ≠ [] ∧ pat <+: s then
    (pos, pos + byteLen pat) :: matchIdx pat (s.drop pat.length) (pos + byteLen pat)
  else
    match s with
    | [] => []
    | c :: rest => matchIdx pat rest (pos + c.utf8Size)
termination_by s.length
decreasing_by
  · have h1 : 1 ≤ pat.length := by
      cases hpat : pat with
      | nil => exact absurd hpat hp.1
      | cons a l => simp
    have h2 : pat.length ≤ s.length := hp.2.length_le
    simp only [List.length_drop]
    omega
  · simp

/-- Model of `str::match_indices` returning `(start, start + term.len())`
byte spans, including its empty-pattern behaviour. -/
def matchIndices (s pat : List Char) : List (Nat × Nat) :=
  if pat = [] then boundarySpans s 0 else matchIdx pat s 0

/-- Model of `Redactor::find_allowlist_spans` (`redactor.rs` lines 68–77). -/
def find_allowlist_spans (p : RedactionPolicy) (text : List Char) : List (Nat × Nat) :=
  ((p.allowlist.map (fun term => matchIndices text term))).flatten

/-- Filter predicate of step 4 of `Redactor::redact`: keep a detection iff it
intersects no allowlist span (`d.start < span.end && d.end > span.start`). -/
def keepDet (spans : List (Nat × Nat)) (d : Detection) : Bool :=
  ! spans.any (fun span => decide (d.start < span.2) && decide (d.stop > span.1))

/-- Chars of `s` occupying the first `n` bytes, modelling the Rust slice
`&s[..n]` (offsets produced by detectors land on char boundaries). -/
def takeBytes : List Char → Nat → List Char
  | _, 0 => []
  | [], _ => []
  | c :: s, n => c :: takeBytes s (n - c.utf8Size)

/-- Chars of `s` after the first `n` bytes, modelling the Rust slice `&s[n..]`. -/
def dropBytes : List Char → Nat → List Char
  | s, 0 => s
  | [], _ => []
  | c :: s, n => dropBytes s (n - c.utf8Size)

/-- Model of Rust `str::split('.')` (`domain.split('.').collect()` in
`redact_email_structured`): split at every dot, keeping empty pieces, with
one empty piece for the empty string. -/
def splitDots : List Char → List (List Char)
  | [] => [[]]
  | c :: rest =>
    if c = '.' then [] :: splitDots rest
    else
      match splitDots rest with
      | [] => [[c]]
      | p :: ps => (c :: p) :: ps

/-- Model of `Redactor::redact_email_structured` (`redactor.rs` lines
111–133). -/
def redact_email_structured (email : List Char) : List Char :=
  if '@' ∈ email then
    let locpart := email.takeWhile (fun c => c ≠ '@')
    let domain := (email.dropWhile (fun c => c ≠ '@')).tail
    let local_redacted := locpart.map (fun c => if c = '.' then '.' else '█')
    let parts := splitDots domain
    if 2 ≤ parts.length then
      let tld := parts.getLastD []
      let main := List.intercalate ['.'] parts.dropLast
      local_redacted ++ '@' :: List.replicate (byteLen main) '█' ++ '.' :: tld
    else
      local_redacted ++ '@' :: List.replicate (byteLen domain) '█'
  else
    List.replicate (byteLen email) '█'

/-- Model of `Redactor::redact_phone_structured`. -/
def redact_phone_structured (phone : List Char) : List Char :=
  phone.map (fun c => if c.isDigit then '█' else c)

/-- Model of `Redactor::redact_ssn_structured`. -/
def redact_ssn_structured (ssn : List Char) : List Char :=
  ssn.map (fun c => if c.isDigit then '█' else c)

/-- Model of the digit-counting loop of `Redactor::redact_credit_card_structured`:
`total` is the total number of ASCII digits in the match and `cnt` the number
of digits already consumed. -/
def ccGo (total : Nat) : List Char → Nat → List Char
  | [], _ => []
  | c :: rest, cnt =>
    if c.isDigit then
      (if total - 4 < cnt + 1 then c else '█') :: ccGo total rest (cnt + 1)
    else
      c :: ccGo total rest cnt

/-- Model of `Redactor::redact_credit_card_structured` (`redactor.rs` lines
148–169). -/
def redact_credit_card_structured (cc : List Char) : List Char :=
  let digits := cc.filter Char.isDigit
  if digits.length < 4 then
    List.replicate (byteLen cc) '█'
  else
    ccGo digits.length cc 0

/-- Model of `Redactor::redact_structured` (dispatch on the category). -/
def redact_structured (original : List Char) (t : PiiType) : List Char :=
  match t with
  | .Email => redact_email_structured original
  | .PhoneNumber => redact_phone_structured original
  | .Ssn => redact_ssn_structured original
  | .CreditCard => redact_credit_card_structured original
  | .IpAddressV4 => List.replicate (byteLen original) '█'
  | .IpAddressV6 => List.replicate (byteLen original) '█'

/-- Loop of `Redactor::apply_redactions`: copy the bytes between `last_idx`
and the next detection verbatim, emit the structured redaction of the
detection's original text, and finish with the bytes after the last
detection. -/
def applyLoop (text : List Char) : Nat → List Detection → List Char
  | last_idx, [] => dropBytes text last_idx
  | last_idx, d :: rest =>
    (if last_idx < d.start then takeBytes (dropBytes text last_idx) (d.start - last_idx) else [])
      ++ redact_structured d.original d.pii_type
      ++ applyLoop text d.stop rest

/-- Model of `Redactor::apply_redactions` (`redactor.rs` lines 79–99). -/
def apply_redactions (text : List Char) (detections : List Detection) : List Char :=
  applyLoop text 0 detections

/-- Model of `Redactor` from `redactor.rs`. -/
structure Redactor where
  detector : MultiDetector
  policy : RedactionPolicy

/-- Model of `Redactor::new`. -/
def Redactor.new (detectors : List PiiDetectorI) (policy : RedactionPolicy) : Redactor :=
  ⟨⟨detectors⟩, policy⟩

/-- Steps 2–6 of `Redactor::redact` after the blocklist pass: `working` and
`applied` are the blocklist-modified text and the substitution flag.  The
Rust pair of early returns (`Borrowed` when nothing changed, `Owned working`
when only the blocklist fired) is written as nested conditionals. -/
def redactCore (r : Redactor) (text working : List Char) (applied : Bool) : Cow :=
  let spans := find_allowlist_spans r.policy working
  let filtered := (r.detector.detect working).filter (keepDet spans)
  if filtered = [] then
    if applied then Cow.Owned working else Cow.Borrowed text
  else
    Cow.Owned (apply_redactions working filtered)

/-- Model of `Redactor::redact` (`redactor.rs` lines 24–66). -/
def Redactor.redact (r : Redactor) (text : List Char) : Cow :=
  if text = [] then
    Cow.Borrowed text
  else
    let wp := blocklistPass r.policy.blocklist text false
    redactCore r text wp.1 wp.2

/-- Output ordering established by overlap resolution: the earlier detection
starts no later than the later one, and ends at or before the later one's
start (non-overlap). -/
def detOrdered (a b : Detection) : Prop :=
  a.start ≤ b.start ∧ a.stop ≤ b.start

instance : IsTrans Detection detOrdered where
  trans a b c hab hbc := by
    unfold detOrdered at *
    omega

lemma detLe_start {a b : Detection} (h : detLe a b) : a.start ≤ b.start := by
  unfold detLe at h
  omega

lemma sweep_sound :
    ∀ (rest : List Detection) (current : Detection),
      List.Pairwise (fun a b : Detection => a.start ≤ b.start) (current :: rest) →
      List.Chain' detOrdered (MultiDetector.sweep current rest) ∧
        ∃ c tl, MultiDetector.sweep current rest = c :: tl ∧ current.start ≤ c.start := by
  intro rest
  induction rest with
  | nil =>
    intro current _
    exact ⟨List.chain'_singleton current, current, [], rfl, le_refl _⟩
  | cons d rest ih =>
    intro current h
    rcases List.pairwise_cons.mp h with ⟨hcur, hdrest⟩
    have hcd : current.start ≤ d.start := hcur d (List.mem_cons_self d rest)
    by_cases hov : d.start < current.stop
    · by_cases hlong : current.stop - current.start < d.stop - d.start
      · have hres := ih d hdrest
        rw [MultiDetector.sweep, if_pos hov, if_pos hlong]
        rcases hres with ⟨hchain, c, tl, heq, hc⟩
        exact ⟨hchain, c, tl, heq, le_trans hcd hc⟩
      · have hpw : List.Pairwise (fun a b : Detection => a.start ≤ b.start) (current :: rest) := by
          refine List.pairwise_cons.mpr ⟨?_, (List.pairwise_cons.mp hdrest).2⟩
          intro b hb
          exact hcur b (List.mem_cons_of_mem d hb)
        have hres := ih current hpw
        rw [MultiDetector.sweep, if_pos hov, if_neg hlong]
        exact hres
    · have hres := ih d hdrest
      rcases hres with ⟨hchain, c, tl, heq, hc⟩
      rw [MultiDetector.sweep, if_neg hov]
      constructor
      · rw [heq]
        refine List.Chain'.cons ?_ (heq ▸ hchain)
        exact ⟨le_trans hcd hc, le_trans (Nat.le_of_not_lt hov) hc⟩
      · exact ⟨current, MultiDetector.sweep d rest, rfl, le_refl _⟩

/-- C3: for every finite list of candidate detections, the sequence returned
by `MultiDetector.resolve_overlaps` — and hence by `MultiDetector.detect` —
is sorted ascending by start offset and pairwise non-overlapping: for any two
emitted detections, the earlier one's `stop` is at most the later one's
`start`.  (`detOrdered a b` is `a.start ≤ b.start ∧ a.stop ≤ b.start`; the
theorem needs no validity hypothesis on the candidate spans at all, so it in
particular covers every list with `start < end`.) -/
theorem C3_resolve_overlaps_sorted_nonoverlapping :
    (∀ l : List Detection, List.Pairwise detOrdered (MultiDetector.resolve_overlaps l)) ∧
    (∀ (md : MultiDetector) (text : List Char),
      List.Pairwise detOrdered (md.detect text)) := by
  have main : ∀ l : List Detection, List.Pairwise detOrdered (MultiDetector.resolve_overlaps l) := by
    intro l
    unfold MultiDetector.resolve_overlaps
    have hs : List.Sorted detLe (List.insertionSort detLe l) := List.sorted_insertionSort detLe l
    cases heq : List.insertionSort detLe l with
    | nil => exact List.Pairwise.nil
    | cons d rest =>
      rw [heq] at hs
      have hp : List.Pairwise (fun a b : Detection => a.start ≤ b.start) (d :: rest) :=
        List.Pairwise.imp (fun hab => detLe_start hab) hs
      have hres := (sweep_sound rest d hp).1
      exact (List.chain'_iff_pairwise).mp hres
  exact ⟨main, fun md text => main _⟩

/-- C10: the named profile constructors start from the derived
`PolicyBuilder::default()`, which wraps `RedactionPolicy::default()` enabling
all six categories; hence `hipaa()` and `pci_dss()` enable every category
(their `enable` calls are no-ops) and `gdpr()` enables every category except
`Ssn`.  In particular `is_enabled(CreditCard)` and `is_enabled(Email)` hold
under `hipaa()` and `is_enabled(Email)` holds under `pci_dss()`. -/
theorem C10_profile_enabled_categories :
    (∀ t : PiiType, RedactionPolicy.hipaa.is_enabled t) ∧
    (∀ t : PiiType, RedactionPolicy.pci_dss.is_enabled t) ∧
    (∀ t : PiiType, RedactionPolicy.gdpr.is_enabled t ↔ t ≠ PiiType.Ssn) := by
  decide

/-- C4 (counterexample): the claim as frozen is false on the code in both of
its parts.  First, with the three candidates `(0,50)`, `(40,60)`, `(55,58)`
the greedy sweep keeps `(0,50)` and `(55,58)`: the dropped candidate
`(40,60)` overlaps the retained `(55,58)` and is strictly longer, so the
longer span of that overlapping pair is not the one retained.  Second, with
the two equal-length overlapping candidates `(2,6)` listed first and `(0,4)`
listed second, the sort orders them by start, so the retained detection is
`(0,4)` although `(2,6)` appeared earlier in the concatenated input. -/
theorem C4_counterexample_longest_and_tie :
    (MultiDetector.resolve_overlaps
        [⟨.Email, 0, 50, []⟩, ⟨.PhoneNumber, 40, 60, []⟩, ⟨.Ssn, 55, 58, []⟩]
      = [⟨.Email, 0, 50, []⟩, ⟨.Ssn, 55, 58, []⟩]) ∧
    (55 < 60 ∧ 40 < 58 ∧ 58 - 55 < 60 - 40) ∧
    (MultiDetector.resolve_overlaps [⟨.Email, 2, 6, []⟩, ⟨.Email, 0, 4, []⟩]
      = [⟨.Email, 0, 4, []⟩]) ∧
    (0 < 6 ∧ 2 < 4 ∧ 6 - 2 = 4 - 0 ∧
      decide ((⟨.Email, 0, 4, []⟩ : Detection) = ⟨.Email, 2, 6, []⟩) = false) := by
  decide

/-- C4 (amended): when `resolve_overlaps` processes exactly two overlapping
candidates, the strictly longer span is retained; when the spans have equal
length, the candidate earlier in the stable sort order is retained — the one
with the smaller start offset, and only for identical start offsets the one
appearing earlier in the concatenated per-detector input.  (In larger sets
the longer-span rule applies greedily against the current candidate only, so
a dropped candidate may overlap a retained shorter one, as the counterexample
shows.) -/
theorem C4_amended_two_candidate_resolution (a b : Detection)
    (hba : b.start < a.stop) (hab : a.start < b.stop) :
    MultiDetector.resolve_overlaps [a, b] =
      [if a.stop - a.start < b.stop - b.start then b
       else if b.stop - b.start < a.stop - a.start then a
       else if b.start < a.start then b else a] := by
  have hsort : List.insertionSort detLe [a, b] = if detLe a b then [a, b] else [b, a] := by
    simp [List.insertionSort, List.orderedInsert]
  unfold MultiDetector.resolve_overlaps
  rw [hsort]
  by_cases hle : detLe a b
  · rw [if_pos hle]
    show MultiDetector.sweep a [b] = _
    rw [MultiDetector.sweep, if_pos hba]
    have hstart : a.start ≤ b.start := detLe_start hle
    by_cases hl : a.stop - a.start < b.stop - b.start
    · rw [if_pos hl, MultiDetector.sweep, if_pos hl]
    · rw [if_neg hl, MultiDetector.sweep, if_neg hl]
      by_cases h2 : b.stop - b.start < a.stop - a.start
      · rw [if_pos h2]
      · rw [if_neg h2, if_neg (by omega : ¬ b.start < a.start)]
  · rw [if_neg hle]
    show MultiDetector.sweep b [a] = _
    rw [MultiDetector.sweep, if_pos hab]
    unfold detLe at hle
    push_neg at hle
    obtain ⟨h3, h4⟩ := hle
    by_cases hl : b.stop - b.start < a.stop - a.start
    · rw [if_pos hl, MultiDetector.sweep,
        if_neg (by omega : ¬ a.stop - a.start < b.stop - b.start), if_pos hl]
    · rw [if_neg hl, MultiDetector.sweep]
      by_cases h2 : a.stop - a.start < b.stop - b.start
      · rw [if_pos h2]
      · have hba2 : b.start < a.start := by
          rcases Nat.lt_or_ge b.start a.start with h | h
          · exact h
          · have heq : a.start = b.start := by omega
            have h5 := h4 heq
            omega
        rw [if_neg h2, if_neg hl, if_pos hba2]

/-- Witness for the amended C4 theorem at a concrete overlapping pair: the
strictly longer candidate `(5,20)` wins against `(0,10)`. -/
theorem C4_amended_witness :
    ((5 : Nat) < 10 ∧ (0 : Nat) < 20) ∧
    MultiDetector.resolve_overlaps [⟨.Email, 0, 10, []⟩, ⟨.Ssn, 5, 20, []⟩]
      = [⟨.Ssn, 5, 20, []⟩] := by
  refine ⟨by decide, ?_⟩
  have h := C4_amended_two_candidate_resolution ⟨.Email, 0, 10, []⟩ ⟨.Ssn, 5, 20, []⟩
    (by decide) (by decide)
  rw [h]
  decide

/-- Input used to exhibit that `redact` ignores the enabled-category set. -/
def ssnDemoInput : List Char := "123-45-6789".toList

/-- SSN detector instance used by the C1 evaluation: it reports the whole
demo input as one SSN detection and keeps the trait-default `validate`. -/
def ssnDemoDetector : PiiDetectorI where
  pii_type := .Ssn
  detect := fun t => if t = ssnDemoInput then [⟨.Ssn, 0, 11, ssnDemoInput⟩] else []

/-- Redactor whose policy is the GDPR profile, in which `Ssn` is disabled. -/
def c1Redactor : Redactor :=
  Redactor.new [ssnDemoDetector] RedactionPolicy.gdpr

/-- C1 (code evaluation): `Redactor::redact` never consults
`RedactionPolicy::is_enabled` — its result is invariant under arbitrary
replacement of the policy's `enabled_types` set — and at the failing input a
detection of the disabled category `Ssn` under the GDPR profile is still
redacted, contradicting the claim that occurrences matched only by a detector
of a disabled category appear unchanged in the output. -/
theorem C1_enabled_categories_not_honored :
    (∀ (r : Redactor) (s : Finset PiiType) (text : List Char),
      Redactor.redact ⟨r.detector, { r.policy with enabled_types := s }⟩ text
        = Redactor.redact r text) ∧
    decide (RedactionPolicy.gdpr.is_enabled .Ssn) = false ∧
    Redactor.redact c1Redactor ssnDemoInput = Cow.Owned ("███-██-████".toList) := by
  refine ⟨?_, by decide, by decide⟩
  intro r s text
  rcases r with ⟨md, pol⟩
  rcases pol
  rfl

/-- Input used to exhibit that `redact` never invokes `validate`. -/
def ccDemoInput : List Char := "4111 1111 1111 1111".toList

/-- Credit-card detector instance used by the C2 evaluation: it reports the
whole demo input as one detection and its `validate` rejects every candidate. -/
def ccDemoDetector : PiiDetectorI where
  pii_type := .CreditCard
  detect := fun t => if t = ccDemoInput then [⟨.CreditCard, 0, 19, ccDemoInput⟩] else []
  validate := fun _ => false

/-- Redactor with the default policy, whose `strict_validation` is `true`. -/
def c2Redactor : Redactor :=
  Redactor.new [ccDemoDetector] RedactionPolicy.mkDefault

/-- C2 (code evaluation): `Redactor::redact` never invokes the detectors'
`validate` operation — its result is invariant under arbitrary replacement of
every detector's `validate` function — and at the failing input a candidate
whose `validate` returns `false`, under a policy with
`requires_validation() = true`, is still redacted, contradicting the claim
that such a candidate is suppressed as a false positive. -/
theorem C2_validate_never_invoked :
    (∀ (ds : List PiiDetectorI) (pol : RedactionPolicy)
        (v : PiiDetectorI → List Char → Bool) (text : List Char),
      Redactor.redact (Redactor.new (ds.map (fun d => { d with validate := v d })) pol) text
        = Redactor.redact (Redactor.new ds pol) text) ∧
    c2Redactor.policy.requires_validation = true ∧
    ccDemoDetector.validate ccDemoInput = false ∧
    Redactor.redact c2Redactor ccDemoInput = Cow.Owned ("████ ████ ████ 1111".toList) := by
  refine ⟨?_, rfl, rfl, by decide⟩
  intro ds pol v text
  have hdet : ∀ s : List Char,
      MultiDetector.detect ⟨ds.map (fun d => { d with validate := v d })⟩ s
        = MultiDetector.detect ⟨ds⟩ s := by
    intro s
    unfold MultiDetector.detect
    rw [List.map_map]
    rfl
  unfold Redactor.redact Redactor.new redactCore
  simp only [hdet]

/-- The blocklist loop leaves the text unchanged and the flag unset when no
blocklist term occurs in the text. -/
lemma blocklistPass_noop :
    ∀ (terms : List (List Char)) (text : List Char),
      (∀ t ∈ terms, ¬ t <:+: text) → blocklistPass terms text false = (text, false) := by
  intro terms
  induction terms with
  | nil => intro text _; rfl
  | cons t rest ih =>
    intro text h
    rw [blocklistPass, if_neg (h t (List.mem_cons_self t rest))]
    exact ih text (fun u hu => h u (List.mem_cons_of_mem t hu))

/-- C5: `redact` of the empty input is the borrowed empty input, and whenever
no blocklist term occurs as a substring of the input and the composite scan
filtered against the allowlist spans leaves no surviving detection, `redact`
returns the original input borrowed (`Cow::Borrowed`), not a copy. -/
theorem C5_zero_copy_when_unchanged :
    (∀ r : Redactor, Redactor.redact r [] = Cow.Borrowed []) ∧
    (∀ (r : Redactor) (text : List Char),
      (∀ t ∈ r.policy.blocklist, ¬ t <:+: text) →
      (r.detector.detect text).filter (keepDet (find_allowlist_spans r.policy text)) = [] →
      Redactor.redact r text = Cow.Borrowed text) := by
  constructor
  · intro r
    rfl
  · intro r text hbl hfil
    by_cases htext : text = []
    · subst htext
      rfl
    · unfold Redactor.redact
      rw [if_neg htext]
      rw [blocklistPass_noop r.policy.blocklist text hbl]
      unfold redactCore
      simp only []
      rw [hfil]
      rfl

/-- Detector that reports nothing, used for the C5 witness. -/
def noopDemoDetector : PiiDetectorI where
  pii_type := .Email
  detect := fun _ => []

/-- Redactor used for the C5 witness: one no-op detector, default policy. -/
def c5Redactor : Redactor :=
  Redactor.new [noopDemoDetector] RedactionPolicy.mkDefault

/-- Witness for C5 at a concrete input: "Hello world" with no detection and
an empty blocklist comes back borrowed. -/
theorem C5_zero_copy_witness :
    (∀ t ∈ c5Redactor.policy.blocklist, ¬ t <:+: ("Hello world".toList)) ∧
    (c5Redactor.detector.detect ("Hello world".toList)).filter
        (keepDet (find_allowlist_spans c5Redactor.policy ("Hello world".toList))) = [] ∧
    Redactor.redact c5Redactor ("Hello world".toList) = Cow.Borrowed ("Hello world".toList) :=
  ⟨by decide, by decide,
    C5_zero_copy_when_unchanged.2 c5Redactor ("Hello world".toList) (by decide) (by decide)⟩

lemma splitDots_ne_nil : ∀ s : List Char, splitDots s ≠ [] := by
  intro s
  induction s with
  | nil => simp [splitDots]
  | cons c rest ih =>
    rw [splitDots]
    by_cases hc : c = '.'
    · simp [hc]
    · rw [if_neg hc]
      cases h : splitDots rest with
      | nil => simp
      | cons p ps => simp

lemma splitDots_no_dot : ∀ s : List Char, '.' ∉ s → splitDots s = [s] := by
  intro s
  induction s with
  | nil => intro _; rfl
  | cons c rest ih =>
    intro h
    have hc : ¬ c = '.' := fun hh => h (hh ▸ List.mem_cons_self c rest)
    have hrest : '.' ∉ rest := fun hh => h (List.mem_cons_of_mem c hh)
    rw [splitDots, if_neg hc, ih hrest]

lemma splitDots_append : ∀ a b : List Char, splitDots (a ++ '.' :: b) = splitDots a ++ splitDots b := by
  intro a b
  induction a with
  | nil => simp [splitDots]
  | cons c a' ih =>
    by_cases hc : c = '.'
    · have h2 : splitDots (c :: a') = [] :: splitDots a' := by rw [splitDots, if_pos hc]
      rw [List.cons_append, splitDots, if_pos hc, ih, h2]
      rfl
    · have h1 : splitDots (c :: (a' ++ '.' :: b)) =
          match splitDots (a' ++ '.' :: b) with
          | [] => [[c]]
          | p :: ps => (c :: p) :: ps := by
        rw [splitDots, if_neg hc]
      have h2 : splitDots (c :: a') =
          match splitDots a' with
          | [] => [[c]]
          | p :: ps => (c :: p) :: ps := by
        rw [splitDots, if_neg hc]
      rw [List.cons_append, h1, h2, ih]
      cases h : splitDots a' with
      | nil => exact absurd h (splitDots_ne_nil a')
      | cons p ps => simp [h]

lemma intercalate_one (sep x : List Char) : List.intercalate sep [x] = x := by
  simp [List.intercalate]

lemma intercalate_cons (sep x p : List Char) (ps : List (List Char)) :
    List.intercalate sep (x :: p :: ps) = x ++ sep ++ List.intercalate sep (p :: ps) := by
  simp [List.intercalate]

lemma intercalate_cons_head (sep : List Char) (c : Char) (p : List Char)
    (ps : List (List Char)) :
    List.intercalate sep ((c :: p) :: ps) = c :: List.intercalate sep (p :: ps) := by
  cases ps with
  | nil => rw [intercalate_one, intercalate_one]
  | cons q qs => rw [intercalate_cons, intercalate_cons]; simp

lemma intercalate_splitDots : ∀ s : List Char, List.intercalate ['.'] (splitDots s) = s := by
  intro s
  induction s with
  | nil => rfl
  | cons c rest ih =>
    rw [splitDots]
    by_cases hc : c = '.'
    · rw [if_pos hc]
      cases h : splitDots rest with
      | nil => exact absurd h (splitDots_ne_nil rest)
      | cons p ps =>
        have ih' : List.intercalate ['.'] (p :: ps) = rest := by rw [← h]; exact ih
        rw [intercalate_cons, ih', hc]
        rfl
    · rw [if_neg hc]
      cases h : splitDots rest with
      | nil => exact absurd h (splitDots_ne_nil rest)
      | cons p ps =>
        have ih' : List.intercalate ['.'] (p :: ps) = rest := by rw [← h]; exact ih
        rw [intercalate_cons_head, ih']

lemma takeWhile_at_split : ∀ (l d : List Char), '@' ∉ l →
    (l ++ '@' :: d).takeWhile (fun c => c ≠ '@') = l := by
  intro l d
  induction l with
  | nil => intro _; simp [List.takeWhile_cons]
  | cons c l ih =>
    intro h
    have hc : ¬ c = '@' := fun hh => h (hh ▸ List.mem_cons_self c l)
    have h' : '@' ∉ l := fun hh => h (List.mem_cons_of_mem c hh)
    rw [List.cons_append, List.takeWhile_cons]
    have ih2 := ih h'
    simp only [ne_eq, decide_not] at ih2 ⊢
    simp [hc, ih2]

lemma dropWhile_at_split : ∀ (l d : List Char), '@' ∉ l →
    (l ++ '@' :: d).dropWhile (fun c => c ≠ '@') = '@' :: d := by
  intro l d
  induction l with
  | nil => intro _; simp [List.dropWhile_cons]
  | cons c l ih =>
    intro h
    have hc : ¬ c = '@' := fun hh => h (hh ▸ List.mem_cons_self c l)
    have h' : '@' ∉ l := fun hh => h (List.mem_cons_of_mem c hh)
    rw [List.cons_append, List.dropWhile_cons]
    have ih2 := ih h'
    simp only [ne_eq, decide_not] at ih2 ⊢
    simp [hc, ih2]

/-- C6: structured email redaction.  For every matched email split as
`locpart ++ "@" ++ domain`: each local-part character becomes a block
character except literal dots, which are preserved; when the domain contains
a dot (`domain = main ++ "." ++ tld` with a dot-free trailing label `tld`),
the trailing label is preserved and everything before the last dot is
collapsed to a block run of its total byte length, joined to the label by one
dot; a domain without a dot is fully blocked.  (The block-run length is the
Rust byte length of the collapsed text, which equals its character count for
ASCII domains; the concrete example of the claim is checked in the
witness.) -/
theorem C6_email_structured_redaction :
    (∀ locpart main tld : List Char, '@' ∉ locpart → '.' ∉ tld →
      redact_email_structured (locpart ++ '@' :: (main ++ '.' :: tld)) =
        locpart.map (fun c => if c = '.' then '.' else '█') ++
          '@' :: (List.replicate (byteLen main) '█' ++ '.' :: tld)) ∧
    (∀ locpart domain : List Char, '@' ∉ locpart → '.' ∉ domain →
      redact_email_structured (locpart ++ '@' :: domain) =
        locpart.map (fun c => if c = '.' then '.' else '█') ++
          '@' :: List.replicate (byteLen domain) '█') := by
  constructor
  · intro l m t hl ht
    have hmem : '@' ∈ l ++ '@' :: (m ++ '.' :: t) :=
      List.mem_append_right l (List.mem_cons_self _ _)
    simp only [redact_email_structured, if_pos hmem]
    rw [takeWhile_at_split l (m ++ '.' :: t) hl, dropWhile_at_split l (m ++ '.' :: t) hl]
    simp only [List.tail_cons]
    rw [splitDots_append m t, splitDots_no_dot t ht]
    have hlen : 2 ≤ (splitDots m ++ [t]).length := by
      have h1 : splitDots m ≠ [] := splitDots_ne_nil m
      have h2 : 0 < (splitDots m).length := List.length_pos.mpr h1
      simp only [List.length_append, List.length_cons, List.length_nil]
      omega
    rw [if_pos hlen, List.getLastD_concat, List.dropLast_concat, intercalate_splitDots m]
    simp [List.append_assoc]
  · intro l d hl hd
    have hmem : '@' ∈ l ++ '@' :: d :=
      List.mem_append_right l (List.mem_cons_self _ _)
    simp only [redact_email_structured, if_pos hmem]
    rw [takeWhile_at_split l d hl, dropWhile_at_split l d hl]
    simp only [List.tail_cons]
    rw [splitDots_no_dot d hd]
    rw [if_neg (by simp : ¬ 2 ≤ ([d] : List (List Char)).length)]

/-- Witness for C6 at the claim's concrete example:
`"john.doe@example.com"` redacts to `"████.███@███████.com"`. -/
theorem C6_email_witness :
    ('@' ∉ "john.doe".toList ∧ '.' ∉ "com".toList) ∧
    redact_email_structured ("john.doe@example.com".toList) =
      "████.███@███████.com".toList := by
  refine ⟨by decide, ?_⟩
  have hin : ("john.doe@example.com".toList) =
      ("john.doe".toList ++ '@' :: ("example".toList ++ '.' :: "com".toList)) := by decide
  have h := C6_email_structured_redaction.1 "john.doe".toList "example".toList "com".toList
    (by decide) (by decide)
  rw [hin, h]
  decide

/-- Formalisation of the specification sentence for credit-card redaction,
written independently of the source loop: a character is preserved when it is
not an ASCII digit, or when it is a digit with fewer than four ASCII digits
strictly after it (i.e. one of the last four digits); every other digit
becomes a block character. -/
def ccSpecMask : List Char → List Char
  | [] => []
  | c :: rest =>
    (if c.isDigit then (if (rest.filter Char.isDigit).length < 4 then c else '█') else c)
      :: ccSpecMask rest

lemma ccGo_eq_spec : ∀ (cc : List Char) (cnt total : Nat),
    total = cnt + (cc.filter Char.isDigit).length →
    ccGo total cc cnt = ccSpecMask cc := by
  intro cc
  induction cc with
  | nil => intro cnt total _; rfl
  | cons c rest ih =>
    intro cnt total h
    rw [ccGo, ccSpecMask]
    by_cases hd : c.isDigit
    · have hlen : total = (cnt + 1) + (rest.filter Char.isDigit).length := by
        rw [h, List.filter_cons_of_pos hd]
        simp
        omega
      have hiff : (total - 4 < cnt + 1) ↔ ((rest.filter Char.isDigit).length < 4) := by
        omega
      rw [if_pos hd, if_pos hd]
      congr 1
      · by_cases hc : total - 4 < cnt + 1
        · rw [if_pos hc, if_pos (hiff.mp hc)]
        · rw [if_neg hc, if_neg (fun hh => hc (hiff.mpr hh))]
      · exact ih (cnt + 1) total hlen
    · have hlen : total = cnt + (rest.filter Char.isDigit).length := by
        rw [h, List.filter_cons_of_neg hd]
      rw [if_neg hd, if_neg hd]
      congr 1
      exact ih cnt total hlen

/-- C7: structured credit-card redaction equals the specification mask — it
preserves exactly the last four ASCII digits, replaces every earlier ASCII
digit with a block character, and preserves non-digit separators verbatim —
except that a match with fewer than four ASCII digits is blocked wholesale
(one block character per byte); and the claim's concrete example
`"4111 1111 1111 1111"` redacts to `"████ ████ ████ 1111"`. -/
theorem C7_credit_card_structured_redaction :
    (∀ cc : List Char,
      redact_credit_card_structured cc =
        if (cc.filter Char.isDigit).length < 4 then List.replicate (byteLen cc) '█'
        else ccSpecMask cc) ∧
    redact_credit_card_structured ("4111 1111 1111 1111".toList) =
      "████ ████ ████ 1111".toList := by
  constructor
  · intro cc
    unfold redact_credit_card_structured
    by_cases h4 : (cc.filter Char.isDigit).length < 4
    · rw [if_pos h4, if_pos h4]
    · rw [if_neg h4, if_neg h4]
      exact ccGo_eq_spec cc 0 _ (by omega)
  · decide

lemma prefix_infix_ext {l₁ l₂ : List Char} (h : l₁ <+: l₂) : l₁ <:+: l₂ := by
  obtain ⟨u, hu⟩ := h
  exact ⟨[], u, by simpa using hu⟩

lemma infix_drop_cons {pat : List Char} {c : Char} {rest : List Char}
    (h : pat <:+: (c :: rest)) (hnp : ¬ pat <+: (c :: rest)) : pat <:+: rest := by
  obtain ⟨s, t, hst⟩ := h
  cases s with
  | nil => exact absurd ⟨t, by simpa using hst⟩ hnp
  | cons a s' =>
    refine ⟨s', t, ?_⟩
    simp only [List.cons_append] at hst
    injection hst with h1 h2

lemma replaceAll_not_occur :
    ∀ (s pat rep : List Char), ¬ pat <:+: s → replaceAll pat rep s = s := by
  intro s pat rep
  induction s with
  | nil =>
    intro h
    rw [replaceAll, dif_neg (fun hc => h (prefix_infix_ext hc.2))]
  | cons c rest ih =>
    intro h
    have h' : ¬ pat <:+: rest := fun hh => h (List.infix_cons hh)
    rw [replaceAll, dif_neg (fun hc => h (prefix_infix_ext hc.2))]
    show c :: replaceAll pat rep rest = c :: rest
    rw [ih h']


/-- Factorisation of a text at every leftmost non-overlapping occurrence of
`term`, the decomposition that Rust `str::replace` rewrites: scanning left to
right, cut whenever `term` is a prefix of the remaining text and continue
after it, otherwise keep the character in the current piece.  The separator
positions of this factorisation are exactly the occurrences that the
blocklist pass replaces. -/
def splitOnTerm (term : List Char) (s : List Char) : List (List Char) :=
  if hp : term ≠ [] ∧ term <+: s then
    [] :: splitOnTerm term (s.drop term.length)
  else
    match s with
    | [] => [[]]
    | c :: rest =>
      match splitOnTerm term rest with
      | [] => [[c]]
      | p :: ps => (c :: p) :: ps
termination_by s.length
decreasing_by
  · have h1 : 1 ≤ term.length := by
      cases hpat : term with
      | nil => exact absurd hpat hp.1
      | cons a l => simp
    have h2 : term.length ≤ s.length := hp.2.length_le
    simp only [List.length_drop]
    omega
  · simp

lemma splitOnTerm_nil_spec (term rep : List Char) (hterm : term ≠ []) :
    splitOnTerm term [] ≠ [] ∧
    (splitOnTerm term []).headD [] <+: ([] : List Char) ∧
    (∀ p ∈ splitOnTerm term [], ¬ term <:+: p) ∧
    List.intercalate term (splitOnTerm term []) = [] ∧
    replaceAll term rep [] = List.intercalate rep (splitOnTerm term []) ∧
    (term <:+: ([] : List Char) → 2 ≤ (splitOnTerm term []).length) ∧
    (¬ term <:+: ([] : List Char) → splitOnTerm term [] = [[]]) := by
  have hno : ¬ term <:+: ([] : List Char) := by
    intro hc
    rw [List.infix_nil] at hc
    exact hterm hc
  have h0 : splitOnTerm term [] = [[]] := by
    rw [splitOnTerm, dif_neg (fun hc => hterm (List.prefix_nil.mp hc.2))]
  rw [h0]
  refine ⟨by simp, by simp, ?_, by simp [intercalate_one], ?_, fun hc => absurd hc hno,
    fun _ => rfl⟩
  · intro p hp hinf
    have hpe : p = [] := by simpa using hp
    rw [hpe, List.infix_nil] at hinf
    exact hterm hinf
  · rw [replaceAll_not_occur [] term rep hno, intercalate_one]

lemma splitOnTerm_spec :
    ∀ (n : Nat) (s term rep : List Char), s.length ≤ n → term ≠ [] →
      splitOnTerm term s ≠ [] ∧
      (splitOnTerm term s).headD [] <+: s ∧
      (∀ p ∈ splitOnTerm term s, ¬ term <:+: p) ∧
      List.intercalate term (splitOnTerm term s) = s ∧
      replaceAll term rep s = List.intercalate rep (splitOnTerm term s) ∧
      (term <:+: s → 2 ≤ (splitOnTerm term s).length) ∧
      (¬ term <:+: s → splitOnTerm term s = [s]) := by
  intro n
  induction n with
  | zero =>
    intro s term rep hlen hterm
    have hs : s = [] := List.length_eq_zero.mp (Nat.le_zero.mp hlen)
    subst hs
    exact splitOnTerm_nil_spec term rep hterm
  | succ n ih =>
    intro s term rep hlen hterm
    by_cases hpre : term <+: s
    · obtain ⟨u, hu⟩ := hpre
      have hdrop : s.drop term.length = u := by
        rw [← hu]
        exact List.drop_left term u
      have hul : u.length ≤ n := by
        have h1 : 1 ≤ term.length := by
          cases hp2 : term with
          | nil => exact absurd hp2 hterm
          | cons a l => simp
        have h2 : s.length = term.length + u.length := by
          rw [← hu]
          simp
        omega
      obtain ⟨hnn', hhead', hfree', hint', hrep', hocc', hnocc'⟩ := ih u term rep hul hterm
      have hstep : splitOnTerm term s = [] :: splitOnTerm term u := by
        rw [splitOnTerm, dif_pos ⟨hterm, ⟨u, hu⟩⟩, hdrop]
      rw [hstep]
      cases heq : splitOnTerm term u with
      | nil => exact absurd heq hnn'
      | cons p ps =>
        rw [heq] at hint' hrep'
        refine ⟨by simp, by simp, ?_, ?_, ?_, ?_, ?_⟩
        · intro q hq hinf
          rcases List.mem_cons.mp hq with hq0 | hq1
          · rw [hq0, List.infix_nil] at hinf
            exact hterm hinf
          · exact hfree' q (heq ▸ hq1) hinf
        · rw [intercalate_cons, hint', ← hu]
          simp
        · rw [replaceAll, dif_pos ⟨hterm, ⟨u, hu⟩⟩, hdrop, intercalate_cons, hrep']
          simp
        · intro _
          simp
        · intro hno
          exact absurd (prefix_infix_ext ⟨u, hu⟩) hno
    · cases s with
      | nil => exact splitOnTerm_nil_spec term rep hterm
      | cons c rest =>
        have hrl : rest.length ≤ n := by
          simp only [List.length_cons] at hlen
          omega
        obtain ⟨hnn', hhead', hfree', hint', hrep', hocc', hnocc'⟩ := ih rest term rep hrl hterm
        cases heq : splitOnTerm term rest with
        | nil => exact absurd heq hnn'
        | cons p ps =>
          rw [heq] at hhead' hfree' hint' hrep' hocc' hnocc'
          have hphead : p <+: rest := by simpa using hhead'
          have hstep : splitOnTerm term (c :: rest) = (c :: p) :: ps := by
            rw [splitOnTerm, dif_neg (fun hc => hpre hc.2)]
            show (match splitOnTerm term rest with
              | [] => [[c]]
              | p :: ps => (c :: p) :: ps) = (c :: p) :: ps
            rw [heq]
          rw [hstep]
          refine ⟨by simp, ?_, ?_, ?_, ?_, ?_, ?_⟩
          · have hcp : c :: p <+: c :: rest := List.cons_prefix_cons.mpr ⟨rfl, hphead⟩
            simpa using hcp
          · intro q hq hinf
            rcases List.mem_cons.mp hq with hq0 | hq1
            · by_cases hqp : term <+: (c :: p)
              · exact hpre (hqp.trans (List.cons_prefix_cons.mpr ⟨rfl, hphead⟩))
              · exact hfree' p (List.mem_cons_self p ps) (infix_drop_cons (hq0 ▸ hinf) hqp)
            · exact hfree' q (List.mem_cons_of_mem p hq1) hinf
          · rw [intercalate_cons_head, hint']
          · rw [replaceAll, dif_neg (fun hc => hpre hc.2)]
            show c :: replaceAll term rep rest = _
            rw [intercalate_cons_head, hrep']
          · intro hocc
            have h2 := hocc' (infix_drop_cons hocc hpre)
            simp at h2 ⊢
            omega
          · intro hno
            have h2 := hnocc' (fun hh => hno (List.infix_cons hh))
            have h3 : p = rest ∧ ps = [] := by
              constructor
              · injection h2
              · injection h2 with ha hb
            rw [h3.1, h3.2]

/-- C8: the blocklist pass replaces every leftmost non-overlapping occurrence
of a blocklist term with a run of block characters of the term's byte length,
independently of any detector.  For a term at any position of the blocklist
(arbitrary remaining terms and prior flag), the working text factors as the
term-separated pieces of `splitOnTerm` — each piece containing no occurrence
of the term, so every occurrence is a separator — and the pass continues with
exactly those pieces rejoined by the block run, recording a substitution
precisely when the term occurred. -/
theorem C8_blocklist_forced_redaction :
    ∀ (remaining : List (List Char)) (term text : List Char) (applied : Bool), term ≠ [] →
      (∀ p ∈ splitOnTerm term text, ¬ term <:+: p) ∧
      List.intercalate term (splitOnTerm term text) = text ∧
      (term <:+: text → 2 ≤ (splitOnTerm term text).length) ∧
      blocklistPass (term :: remaining) text applied
        = blocklistPass remaining
            (List.intercalate (List.replicate (byteLen term) '█') (splitOnTerm term text))
            (applied || decide (term <:+: text)) := by
  intro remaining term text applied hne
  obtain ⟨hnn, hhead, hfree, hint, hrep, hocc, hnocc⟩ :=
    splitOnTerm_spec text.length text term (List.replicate (byteLen term) '█') le_rfl hne
  refine ⟨hfree, hint, hocc, ?_⟩
  by_cases h : term <:+: text
  · rw [blocklistPass, if_pos h, hrep]
    simp [h]
  · rw [blocklistPass, if_neg h, hnocc h, intercalate_one]
    simp [h]

/-- Witness for C8 at the claim's concrete example: the blocklisted term
`"CONFIDENTIAL"` inside `"Mark this CONFIDENTIAL"` is replaced by a run of
twelve block characters by the blocklist pass alone (no detector involved). -/
theorem C8_blocklist_witness :
    ("CONFIDENTIAL".toList ≠ ([] : List Char)) ∧
    ((∀ p ∈ splitOnTerm ("CONFIDENTIAL".toList) ("Mark this CONFIDENTIAL".toList),
        ¬ "CONFIDENTIAL".toList <:+: p) ∧
      List.intercalate ("CONFIDENTIAL".toList)
          (splitOnTerm ("CONFIDENTIAL".toList) ("Mark this CONFIDENTIAL".toList))
        = "Mark this CONFIDENTIAL".toList ∧
      ("CONFIDENTIAL".toList <:+: "Mark this CONFIDENTIAL".toList →
        2 ≤ (splitOnTerm ("CONFIDENTIAL".toList) ("Mark this CONFIDENTIAL".toList)).length) ∧
      blocklistPass ["CONFIDENTIAL".toList] ("Mark this CONFIDENTIAL".toList) false
        = blocklistPass []
            (List.intercalate (List.replicate (byteLen "CONFIDENTIAL".toList) '█')
              (splitOnTerm ("CONFIDENTIAL".toList) ("Mark this CONFIDENTIAL".toList)))
            (false || decide ("CONFIDENTIAL".toList <:+: "Mark this CONFIDENTIAL".toList))) :=
  ⟨by decide, C8_blocklist_forced_redaction [] ("CONFIDENTIAL".toList)
    ("Mark this CONFIDENTIAL".toList) false (by decide)⟩
